import Mathlib

/-!
Verification development for the bone-to-joint weight reconciliation code of
`PM_autoWeight.py` (pmHeatWeight).  The Python functions are shallowly embedded
as Lean functions: Python floats become exact rationals (`ℚ`), Python list
indexing (with negative-index wrap and `IndexError`) is modelled by `pyResolve`
/ `pyGet` / `pySet` / `pyAddAt`, and fallible code returns `Except PyErr`.

Two points of the source are embedded with particular care:

* the two `assert(cond, msg)` statements at lines 107 and 126 of
  `PM_autoWeight.py` are Python tuple-asserts: the asserted expression is the
  two-element tuple `(cond, msg)`, which is always truthy, so the checks never
  fire.  They are therefore embedded as no-ops, faithful to the code.
* list writes in the fast path (lines 148-151) are modelled by the pure index
  computation `fastPathWrites`, since the actual writes go through the Maya
  `MDoubleArray` API object.
-/

/-- Error channel for the embedded Python code: `IndexError` from list
indexing and `ValueError` from `float()` parsing. -/
inductive PyErr : Type where
  | indexError : PyErr
  | valueError : PyErr
deriving DecidableEq, Repr

/-- Decidable equality for `Except`, used to evaluate embedded functions on
concrete inputs inside `decide` proofs. -/
instance instDecEqExcept {ε α : Type} [DecidableEq ε] [DecidableEq α] :
    DecidableEq (Except ε α) := fun a b =>
  match a, b with
  | Except.ok x, Except.ok y =>
    decidable_of_iff (x = y) (by simp)
  | Except.error x, Except.error y =>
    decidable_of_iff (x = y) (by simp)
  | Except.ok _, Except.error _ => isFalse (by simp)
  | Except.error _, Except.ok _ => isFalse (by simp)

/-- Python list-index resolution: a negative index `i` refers to position
`len + i`; the access is valid iff the resolved position is in `[0, len)`. -/
def pyResolve (n : Nat) (i : Int) : Option Nat :=
  let j : Int := if i < 0 then i + n else i
  if 0 ≤ j ∧ j < (n : Int) then some j.toNat else none

/-- Python `l[i]` (read): returns the element when the index resolves to a
valid position, or raises `IndexError`. -/
def pyGet {α : Type} (l : List α) (i : Int) : Except PyErr α :=
  match (pyResolve l.length i).bind (fun k => l.get? k) with
  | some a => Except.ok a
  | none => Except.error PyErr.indexError

/-- Python `l[i] = a` (write): returns the updated list or raises
`IndexError`. -/
def pySet {α : Type} (l : List α) (i : Int) (a : α) : Except PyErr (List α) :=
  match pyResolve l.length i with
  | some k => Except.ok (l.set k a)
  | none => Except.error PyErr.indexError

/-- Python `l[i] += v` on a list of numbers (read-modify-write at one
index, as in line 133 of `PM_autoWeight.py`). -/
def pyAddAt (l : List ℚ) (i : Int) (v : ℚ) : Except PyErr (List ℚ) :=
  match pyResolve l.length i with
  | some k => Except.ok (l.set k (l.getD k 0 + v))
  | none => Except.error PyErr.indexError

/-- Rational constant `num / den`, written through `mkRat` so that concrete
runs of the embedded code reduce by computation. -/
def rq (num : Int) (den : Nat) : ℚ := mkRat num den

/-- A Maya joint node: an opaque handle (modelled as a `Nat` identifier,
compared by identity) together with the list of child joints returned by
`cmds.listRelatives(..., type="joint", children=True)`. -/
inductive JointNode : Type where
  | node : Nat → List JointNode → JointNode

/-- Handle of the root node of a joint tree. -/
def rootId : JointNode → Nat
  | JointNode.node jid _ => jid

mutual

/-- Embedding of `_makePinocchioSkeletonList` (lines 78-87): append
`(newJoint, newJointParent)` to the accumulated list, then recurse into each
child passing the just-assigned index (`len` before the append) as the
child's parent index.  No visited-set is kept: a handle reachable twice is
simply visited twice. -/
def skelAux (acc : List (Nat × Int)) : JointNode → Int → List (Nat × Int)
  | JointNode.node jid children, par =>
    skelAuxList (acc ++ [(jid, par)]) children (Int.ofNat acc.length)

/-- The `for joint in jointChildren` loop of `_makePinocchioSkeletonList`. -/
def skelAuxList (acc : List (Nat × Int)) : List JointNode → Int → List (Nat × Int)
  | [], _ => acc
  | c :: cs, par => skelAuxList (skelAux acc c par) cs par

end

/-- Embedding of `makePinocchioSkeletonList` (lines 69-76): flatten a joint
tree into `(handle, parentIndex)` pairs, root first with parent `-1`. -/
def makePinocchioSkeletonList (rootJoint : JointNode) : List (Nat × Int) :=
  skelAux [] rootJoint (-1)

mutual

/-- Number of node visits `skelAux` performs on a tree (each occurrence of a
shared subtree counts separately, exactly as the traversal visits it). -/
def treeSize : JointNode → Nat
  | JointNode.node _ children => 1 + treeSizeList children

/-- Sum of `treeSize` over a list of children. -/
def treeSizeList : List JointNode → Nat
  | [] => 0
  | c :: cs => treeSize c + treeSizeList cs

end

/-- The `for jointIndex in xrange(1, numJoints)` loop of lines 121-123:
for each listed `j`, read `skelList[j][1]` and write it into
`boneIndexToJointIndex[j - 1]`. -/
def buildMapLoop (skelList : List (Nat × Int)) :
    List Nat → List Int → Except PyErr (List Int)
  | [], btoj => Except.ok btoj
  | j :: js, btoj =>
    match pyGet skelList (Int.ofNat j) with
    | Except.error e => Except.error e
    | Except.ok entry =>
      match pySet btoj ((j : Int) - 1) entry.2 with
      | Except.error e => Except.error e
      | Except.ok btoj2 => buildMapLoop skelList js btoj2

/-- Embedding of lines 113 and 120-123 (the `assignBoneToEndJoint = False`
branch actually taken): `boneIndexToJointIndex = [0] * numBones`, then for
`jointIndex` in `xrange(1, numJoints)` set
`boneIndexToJointIndex[jointIndex - 1] = skelList[jointIndex][1]`. -/
def buildBoneToJointMap (skelList : List (Nat × Int)) (numBones : Nat) :
    Except PyErr (List Int) :=
  buildMapLoop skelList (List.range' 1 (skelList.length - 1))
    (List.replicate numBones (0 : Int))

/-- Mapping stated by the spec's words (spec.md section 4.2): for each joint
index `j` from 1 to `numJoints - 1`, `boneToJoint[j - 1] =
skeleton[j].parentIndex`.  Used to compare the code's map against the spec. -/
def boneToJointMapSpec (skelList : List (Nat × Int)) (numBones : Nat) :
    List Int :=
  (List.range numBones).map (fun b => ((skelList.get? (b + 1)).getD (0, 0)).2)

/-- Inner loop of lines 129-133 for one vertex row: walk the bone weights
with their bone index `b`, look up `boneIndexToJointIndex[b]`, and do
`vertJointWeights[vertIndex][jointIndex] += boneValue`. -/
def aggRowAux (btoj : List Int) : List ℚ → Nat → List ℚ → Except PyErr (List ℚ)
  | acc, _, [] => Except.ok acc
  | acc, b, v :: vs =>
    match pyGet btoj (Int.ofNat b) with
    | Except.error e => Except.error e
    | Except.ok jointIndex =>
      match pyAddAt acc jointIndex v with
      | Except.error e => Except.error e
      | Except.ok acc2 => aggRowAux btoj acc2 (b + 1) vs

/-- One vertex row of the aggregation: start from the preallocated
`[0] * numJoints` row (line 114) and fold the bone weights in.  The
normalization assert at line 126 is a tuple-assert that never fires, so it
is embedded as a no-op. -/
def aggRow (btoj : List Int) (numJoints : Nat) (row : List ℚ) :
    Except PyErr (List ℚ) :=
  aggRowAux btoj (List.replicate numJoints (0 : ℚ)) 0 row

/-- The outer `for vertIndex, boneWeights in enumerate(vertBoneWeights)`
loop of lines 125-133. -/
def aggregate (btoj : List Int) (numJoints : Nat) :
    List (List ℚ) → Except PyErr (List (List ℚ))
  | [] => Except.ok []
  | r :: rs =>
    match aggRow btoj numJoints r with
    | Except.error e => Except.error e
    | Except.ok out =>
      match aggregate btoj numJoints rs with
      | Except.error e => Except.error e
      | Except.ok outs => Except.ok (out :: outs)

/-- Joint slot (resolved position in a row of `numJoints` entries) that bone
`b` contributes to, when the lookups succeed.  Characterizes where
`aggRowAux` adds each bone weight. -/
def boneTarget (btoj : List Int) (numJoints : Nat) (b : Nat) : Option Nat :=
  match pyGet btoj (Int.ofNat b) with
  | Except.ok j => pyResolve numJoints j
  | Except.error _ => none

/-- Sum of the bone weights (starting at bone index `b`) that land in joint
slot `k` during aggregation of one row. -/
def colSum (btoj : List Int) (numJoints k : Nat) : Nat → List ℚ → ℚ
  | _, [] => 0
  | b, v :: vs =>
    (if boneTarget btoj numJoints b = some k then v else 0) +
      colSum btoj numJoints k (b + 1) vs

/-- Host-side skin-binding state touched by `pinocchioWeightsImport`: the
skin cluster's influence list (joint handles, in influence order) and the
per-vertex skinning weights. -/
structure HostState : Type where
  influences : List Nat
  weights : List (List ℚ)
deriving DecidableEq, Repr

/-- Lines 90-95: every joint of the skeleton list that is not already an
influence of the skin (membership tested against the influence list queried
once, before the loop) is added via `skinCluster -edit -addInfluence`,
which appends it to the skin's influence list. -/
def addInfluences (allInfluences : List Nat) (pinocInfluences : List Nat) :
    List Nat :=
  allInfluences ++ pinocInfluences.filter (fun j => !(allInfluences.contains j))

/-- Line 145, `skinPercent -pruneWeights 100 -normalize False`: zero every
existing influence weight of the mesh. -/
def pruneAllWeights (w : List (List ℚ)) : List (List ℚ) :=
  w.map (fun r => r.map (fun _ => (0 : ℚ)))

/-- Embedding of `pinocchioWeightsImport` (lines 89-145), up to the point
where the aggregated weights are handed to the write path:

1. add missing influences (lines 90-95) — this mutates the host state first;
2. `numBones = len(vertBoneWeights[0])` (line 101) — `IndexError` on an
   empty weight list;
3. the dimension assert of line 107 is a tuple-assert and never fires: no
   check is performed;
4. build `boneIndexToJointIndex` (lines 113, 120-123);
5. aggregate bone weights into joint weights (lines 125-133), the
   normalization assert of line 126 likewise never firing;
6. prune all existing weights (line 145).

The returned state is the host state after the call (unchanged weights when
an error escapes before the prune), paired with the computed
`vertJointWeights` or the raised error. -/
def pinocchioWeightsImport (st : HostState) (skelList : List (Nat × Int))
    (vertBoneWeights : List (List ℚ)) :
    HostState × Except PyErr (List (List ℚ)) :=
  match vertBoneWeights.head? with
  | none =>
    (⟨addInfluences st.influences (skelList.map Prod.fst), st.weights⟩,
      Except.error PyErr.indexError)
  | some row0 =>
    match buildBoneToJointMap skelList row0.length with
    | Except.error e =>
      (⟨addInfluences st.influences (skelList.map Prod.fst), st.weights⟩,
        Except.error e)
    | Except.ok btoj =>
      match aggregate btoj skelList.length vertBoneWeights with
      | Except.error e =>
        (⟨addInfluences st.influences (skelList.map Prod.fst), st.weights⟩,
          Except.error e)
      | Except.ok vertJointWeights =>
        (⟨addInfluences st.influences (skelList.map Prod.fst),
            pruneAllWeights st.weights⟩,
          Except.ok vertJointWeights)

/-- Line 102: `numWeights = numVertices * numBones`, the size of the
`MDoubleArray` allocated at line 148. -/
def numWeights (numVertices numBones : Nat) : Nat := numVertices * numBones

/-- Line 151: the flat buffer index `vertIndex * numBones + jointIndex`
used by `apiWeights.set`. -/
def apiWeightIndex (vertIndex numBones jointIndex : Nat) : Nat :=
  vertIndex * numBones + jointIndex

/-- Inner loop of lines 150-151 for one vertex: emit one
`(flatIndex, value)` write per joint entry of the row, starting at joint
index `j`. -/
def rowWritesAux (vertIndex numBones : Nat) : Nat → List ℚ → List (Nat × ℚ)
  | _, [] => []
  | j, v :: vs =>
    (apiWeightIndex vertIndex numBones j, v) :: rowWritesAux vertIndex numBones (j + 1) vs

/-- Outer loop of lines 149-151 starting at vertex index `vi`. -/
def fastPathWritesAux (numBones : Nat) : Nat → List (List ℚ) → List (Nat × ℚ)
  | _, [] => []
  | vi, r :: rs =>
    rowWritesAux vi numBones 0 r ++ fastPathWritesAux numBones (vi + 1) rs

/-- All `(flatIndex, value)` writes the fast (non-undoable) path performs
into the `MDoubleArray` of size `numWeights` (lines 148-151). -/
def fastPathWrites (vertJointWeights : List (List ℚ)) (numBones : Nat) :
    List (Nat × ℚ) :=
  fastPathWritesAux numBones 0 vertJointWeights

/-- Characters stripped by Python's `str.strip()`: space, tab, newline,
carriage return, vertical tab, form feed. -/
def pyWhitespace (c : Char) : Bool :=
  c.toNat = 32 || c.toNat = 9 || c.toNat = 10 || c.toNat = 13 ||
    c.toNat = 11 || c.toNat = 12

/-- Python `s.strip()` over a character list. -/
def stripChars (cs : List Char) : List Char :=
  ((cs.dropWhile pyWhitespace).reverse.dropWhile pyWhitespace).reverse

/-- The space character, the explicit separator of `line.split(' ')`. -/
def spaceChar : Char := Char.ofNat 32

/-- Python `s.split(' ')`: split on each single space, keeping empty pieces
(so the empty string yields `[""]`). -/
def splitOnSpace : List Char → List (List Char)
  | [] => [[]]
  | c :: rest =>
    if c = spaceChar then [] :: splitOnSpace rest
    else
      match splitOnSpace rest with
      | t :: ts => (c :: t) :: ts
      | [] => [[c]]

/-- Decimal digit test. -/
def isDigitChar (c : Char) : Bool :=
  decide (48 ≤ c.toNat) && decide (c.toNat ≤ 57)

/-- Numeric value of a digit character. -/
def digitVal (c : Char) : Nat := c.toNat - 48

/-- Value of a digit string read in base 10. -/
def natOfDigits (cs : List Char) : Nat :=
  cs.foldl (fun a c => 10 * a + digitVal c) 0

/-- The decimal point character. -/
def dotChar : Char := Char.ofNat 46

/-- The minus sign character. -/
def minusChar : Char := Char.ofNat 45

/-- The plus sign character. -/
def plusChar : Char := Char.ofNat 43

/-- Python `float(token)` for the plain decimal tokens the solver writes:
optional surrounding whitespace, optional sign, digits with at most one
decimal point and at least one digit.  Anything else (including the empty
string, as in `float('')` on a blank line) raises `ValueError`.  Exponent,
`inf` and `nan` forms do not occur in solver output and are modelled as
parse failures. -/
def pyFloat (cs0 : List Char) : Except PyErr ℚ :=
  let cs1 := stripChars cs0
  let signAndRest : ℚ × List Char :=
    match cs1 with
    | c :: rest =>
      if c = minusChar then (-1, rest)
      else if c = plusChar then (1, rest) else (1, cs1)
    | [] => (1, [])
  let sign := signAndRest.1
  let cs := signAndRest.2
  let intPart := cs.takeWhile (fun c => c ≠ dotChar)
  let rest := cs.dropWhile (fun c => c ≠ dotChar)
  let frac : List Char :=
    match rest with
    | [] => []
    | _ :: r => r
  if intPart.all isDigitChar && frac.all isDigitChar &&
      decide (0 < intPart.length + frac.length) then
    Except.ok (sign * ((natOfDigits intPart : ℚ) +
      mkRat (natOfDigits frac) (10 ^ frac.length)))
  else Except.error PyErr.valueError

/-- Effectful map over a list in the `Except` monad, short-circuiting on the
first error (the shape of every parsing loop in the source). -/
def mapExcept {α β : Type} (f : α → Except PyErr β) :
    List α → Except PyErr (List β)
  | [] => Except.ok []
  | a :: as =>
    match f a with
    | Except.error e => Except.error e
    | Except.ok b =>
      match mapExcept f as with
      | Except.error e => Except.error e
      | Except.ok bs => Except.ok (b :: bs)

/-- Line 207: `[float(x) for x in line.strip().split(' ')]`. -/
def parseLine (cs : List Char) : Except PyErr (List ℚ) :=
  mapExcept pyFloat (splitOnSpace (stripChars cs))

/-- Embedding of `readPinocchioWeights` (lines 202-210): one parsed row per
line of the file, with no validation of row counts or row lengths. -/
def readPinocchioWeights (lines : List (List Char)) :
    Except PyErr (List (List ℚ)) :=
  mapExcept parseLine lines

/-! ### Helper lemmas about the Python list primitives -/

theorem pyResolve_ofNat (n k : Nat) :
    pyResolve n (Int.ofNat k) = if k < n then some k else none := by
  unfold pyResolve
  simp only [Int.ofNat_eq_coe]
  have h0 : ¬ ((k : Int) < 0) := by omega
  rw [if_neg h0]
  by_cases hk : k < n
  · rw [if_pos (by omega), if_pos hk]
    simp
  · rw [if_neg (by omega), if_neg hk]

theorem pyResolve_some_lt {n : Nat} {i : Int} {k : Nat}
    (h : pyResolve n i = some k) : k < n := by
  unfold pyResolve at h
  set j : Int := if i < 0 then i + n else i with hj
  by_cases hc : 0 ≤ j ∧ j < (n : Int)
  · rw [if_pos hc] at h
    have : j.toNat = k := by exact Option.some.inj h
    omega
  · rw [if_neg hc] at h
    exact absurd h (by simp)

theorem getD_set_self {l : List ℚ} {k : Nat} (a : ℚ) (h : k < l.length) :
    (l.set k a).getD k 0 = a := by
  rw [List.getD_eq_get?, List.get?_set_eq_of_lt a h]
  rfl

theorem getD_set_other {l : List ℚ} {k m : Nat} (a : ℚ) (h : k ≠ m) :
    (l.set k a).getD m 0 = l.getD m 0 := by
  rw [List.getD_eq_get?, List.get?_set_ne a l h, ← List.getD_eq_get?]

theorem sum_set_getD_add : ∀ (l : List ℚ) (k : Nat) (v : ℚ), k < l.length →
    (l.set k (l.getD k 0 + v)).sum = l.sum + v := by
  intro l
  induction l with
  | nil => intro k v h; simp at h
  | cons x xs ih =>
    intro k v h
    cases k with
    | zero => simp [List.getD]; ring
    | succ k =>
      have hk : k < xs.length := by simpa using h
      simp only [List.set, List.getD_cons_succ, List.sum_cons]
      rw [ih k v hk]
      ring

theorem getD_replicate_zero {n k : Nat} :
    (List.replicate n (0 : ℚ)).getD k 0 = 0 := by
  rw [List.getD_eq_get?]
  cases h : (List.replicate n (0 : ℚ)).get? k with
  | none => rfl
  | some a =>
    have := List.get?_mem h
    have : a = 0 := List.eq_of_mem_replicate this
    simp [this]

theorem pyAddAt_ok_length {l l2 : List ℚ} {i : Int} {v : ℚ}
    (h : pyAddAt l i v = Except.ok l2) : l2.length = l.length := by
  unfold pyAddAt at h
  cases hr : pyResolve l.length i with
  | some k =>
    rw [hr] at h
    cases h
    exact List.length_set l _ _
  | none => rw [hr] at h; exact absurd h (by simp)

theorem pyAddAt_ok_sum {l l2 : List ℚ} {i : Int} {v : ℚ}
    (h : pyAddAt l i v = Except.ok l2) : l2.sum = l.sum + v := by
  unfold pyAddAt at h
  cases hr : pyResolve l.length i with
  | some k =>
    rw [hr] at h
    cases h
    exact sum_set_getD_add l k v (pyResolve_some_lt hr)
  | none => rw [hr] at h; exact absurd h (by simp)

theorem pyAddAt_ok_getD {l l2 : List ℚ} {i : Int} {v : ℚ}
    (h : pyAddAt l i v = Except.ok l2) (m : Nat) (hm : m < l.length) :
    l2.getD m 0 =
      if pyResolve l.length i = some m then l.getD m 0 + v else l.getD m 0 := by
  unfold pyAddAt at h
  cases hr : pyResolve l.length i with
  | some k =>
    rw [hr] at h
    cases h
    by_cases hkm : k = m
    · subst hkm
      rw [if_pos rfl]
      exact getD_set_self _ (pyResolve_some_lt hr)
    · rw [if_neg (by simp [hkm])]
      exact getD_set_other _ hkm
  | none => rw [hr] at h; exact absurd h (by simp)

/-! ### Lemmas about the aggregation loop (lines 125-133) -/

theorem aggRowAux_ok_length (btoj : List Int) :
    ∀ (row acc : List ℚ) (b : Nat) (out : List ℚ),
      aggRowAux btoj acc b row = Except.ok out → out.length = acc.length := by
  intro row
  induction row with
  | nil =>
    intro acc b out h
    simp only [aggRowAux] at h
    cases h
    rfl
  | cons v vs ih =>
    intro acc b out h
    unfold aggRowAux at h
    split at h
    · exact absurd h (by simp)
    · next jI hg =>
      split at h
      · exact absurd h (by simp)
      · next acc2 ha =>
        rw [ih acc2 (b + 1) out h, pyAddAt_ok_length ha]

theorem aggRowAux_ok_sum (btoj : List Int) :
    ∀ (row acc : List ℚ) (b : Nat) (out : List ℚ),
      aggRowAux btoj acc b row = Except.ok out →
      out.sum = acc.sum + row.sum := by
  intro row
  induction row with
  | nil =>
    intro acc b out h
    simp only [aggRowAux] at h
    cases h
    simp
  | cons v vs ih =>
    intro acc b out h
    unfold aggRowAux at h
    split at h
    · exact absurd h (by simp)
    · next jI hg =>
      split at h
      · exact absurd h (by simp)
      · next acc2 ha =>
        rw [ih acc2 (b + 1) out h, pyAddAt_ok_sum ha]
        simp only [List.sum_cons]
        ring

theorem aggRowAux_ok_getD (btoj : List Int) :
    ∀ (row acc : List ℚ) (b : Nat) (out : List ℚ),
      aggRowAux btoj acc b row = Except.ok out →
      ∀ k, k < acc.length →
        out.getD k 0 = acc.getD k 0 + colSum btoj acc.length k b row := by
  intro row
  induction row with
  | nil =>
    intro acc b out h k hk
    simp only [aggRowAux] at h
    cases h
    simp [colSum]
  | cons v vs ih =>
    intro acc b out h k hk
    unfold aggRowAux at h
    split at h
    · exact absurd h (by simp)
    · next jI hg =>
      split at h
      · exact absurd h (by simp)
      · next acc2 ha =>
        have hlen : acc2.length = acc.length := pyAddAt_ok_length ha
        have hout := ih acc2 (b + 1) out h k (by omega)
        rw [hlen] at hout
        have hacc2 := pyAddAt_ok_getD ha k hk
        have hbt : boneTarget btoj acc.length b = pyResolve acc.length jI := by
          unfold boneTarget
          rw [hg]
        have hcs : colSum btoj acc.length k b (v :: vs) =
            (if boneTarget btoj acc.length b = some k then v else 0) +
              colSum btoj acc.length k (b + 1) vs := rfl
        rw [hout, hacc2, hcs, hbt]
        by_cases hres : pyResolve acc.length jI = some k
        · rw [if_pos hres, if_pos hres]
          ring
        · rw [if_neg hres, if_neg hres]
          ring

theorem aggRow_ok_length {btoj : List Int} {n : Nat} {row out : List ℚ}
    (h : aggRow btoj n row = Except.ok out) : out.length = n := by
  have := aggRowAux_ok_length btoj row (List.replicate n (0 : ℚ)) 0 out h
  simpa using this

theorem aggRow_ok_sum {btoj : List Int} {n : Nat} {row out : List ℚ}
    (h : aggRow btoj n row = Except.ok out) : out.sum = row.sum := by
  have := aggRowAux_ok_sum btoj row (List.replicate n (0 : ℚ)) 0 out h
  simpa using this

theorem aggRow_ok_getD {btoj : List Int} {n : Nat} {row out : List ℚ}
    (h : aggRow btoj n row = Except.ok out) (k : Nat) (hk : k < n) :
    out.getD k 0 = colSum btoj n k 0 row := by
  have := aggRowAux_ok_getD btoj row (List.replicate n (0 : ℚ)) 0 out h k
    (by simpa using hk)
  simpa [getD_replicate_zero] using this

theorem aggregate_ok_spec (btoj : List Int) (n : Nat) :
    ∀ (vbw out : List (List ℚ)),
      aggregate btoj n vbw = Except.ok out →
      out.length = vbw.length ∧
      ∀ v rI, vbw.get? v = some rI →
        ∃ rO, out.get? v = some rO ∧ aggRow btoj n rI = Except.ok rO := by
  intro vbw
  induction vbw with
  | nil =>
    intro out h
    simp only [aggregate] at h
    cases h
    exact ⟨rfl, by intro v rI hv; simp at hv⟩
  | cons r rs ih =>
    intro out h
    unfold aggregate at h
    split at h
    · exact absurd h (by simp)
    · next o hr =>
      split at h
      · exact absurd h (by simp)
      · next os hrs =>
        cases h
        obtain ⟨hlen, hrows⟩ := ih os hrs
        refine ⟨by simp [hlen], ?_⟩
        intro v rI hv
        cases v with
        | zero =>
          simp only [List.get?_cons_zero, Option.some.injEq] at hv
          subst hv
          exact ⟨o, rfl, hr⟩
        | succ v =>
          simp only [List.get?_cons_succ] at hv ⊢
          exact hrows v rI hv

theorem import_ok_destruct {st : HostState} {skel : List (Nat × Int)}
    {vbw out : List (List ℚ)}
    (h : (pinocchioWeightsImport st skel vbw).2 = Except.ok out) :
    ∃ row0 btoj, vbw.head? = some row0 ∧
      buildBoneToJointMap skel row0.length = Except.ok btoj ∧
      aggregate btoj skel.length vbw = Except.ok out := by
  cases vbw with
  | nil =>
    exfalso
    unfold pinocchioWeightsImport at h
    simp at h
  | cons row0 rest =>
    unfold pinocchioWeightsImport at h
    simp only [List.head?_cons] at h
    split at h
    · exact absurd h (by simp)
    · next btoj hb =>
      split at h
      · exact absurd h (by simp)
      · next vjw ha =>
        simp only at h
        cases h
        exact ⟨row0, btoj, rfl, hb, ha⟩

/-! ### Lemmas about the bone-to-joint map construction (lines 113-123) -/

theorem buildMapLoop_spec (skel : List (Nat × Int)) :
    ∀ (js : List Nat) (acc : List Int),
      (∀ j ∈ js, 1 ≤ j ∧ j < skel.length ∧ j - 1 < acc.length) →
      ∃ out, buildMapLoop skel js acc = Except.ok out ∧
        out.length = acc.length ∧
        ∀ b, b < acc.length →
          (if b + 1 ∈ js then
            ∃ e, skel.get? (b + 1) = some e ∧ out.get? b = some e.2
          else out.get? b = acc.get? b) := by
  intro js
  induction js with
  | nil =>
    intro acc hjs
    refine ⟨acc, rfl, rfl, ?_⟩
    intro b hb
    simp
  | cons j js ih =>
    intro acc hjs
    obtain ⟨hj1, hjlen, hjacc⟩ := hjs j (by simp)
    obtain ⟨entry, hentry⟩ : ∃ e, skel.get? j = some e := by
      cases he : skel.get? j with
      | none => exact absurd (List.get?_eq_none.mp he) (by omega)
      | some e => exact ⟨e, rfl⟩
    have hget : pyGet skel (Int.ofNat j) = Except.ok entry := by
      unfold pyGet
      rw [pyResolve_ofNat, if_pos hjlen, Option.some_bind, hentry]
    have hcast : (j : Int) - 1 = Int.ofNat (j - 1) := by
      rw [Int.ofNat_eq_coe]
      omega
    have hset : pySet acc ((j : Int) - 1) entry.2 =
        Except.ok (acc.set (j - 1) entry.2) := by
      unfold pySet
      rw [hcast, pyResolve_ofNat, if_pos hjacc]
    have hlen2 : (acc.set (j - 1) entry.2).length = acc.length :=
      List.length_set acc _ _
    have hjs2 : ∀ i ∈ js, 1 ≤ i ∧ i < skel.length ∧
        i - 1 < (acc.set (j - 1) entry.2).length := by
      intro i hi
      obtain ⟨h1, h2, h3⟩ := hjs i (by simp [hi])
      exact ⟨h1, h2, by omega⟩
    obtain ⟨out, hout, houtlen, hchar⟩ := ih (acc.set (j - 1) entry.2) hjs2
    refine ⟨out, ?_, by omega, ?_⟩
    · unfold buildMapLoop
      rw [hget]
      show (match pySet acc ((j : Int) - 1) entry.2 with
            | Except.error e => Except.error e
            | Except.ok btoj2 => buildMapLoop skel js btoj2) = Except.ok out
      rw [hset]
      exact hout
    intro b hb
    have hb2 : b < (acc.set (j - 1) entry.2).length := by omega
    have hchr := hchar b hb2
    by_cases hmem : b + 1 ∈ j :: js
    · rw [if_pos hmem]
      by_cases hmem2 : b + 1 ∈ js
      · rw [if_pos hmem2] at hchr
        exact hchr
      · rw [if_neg hmem2] at hchr
        have hbj : b + 1 = j := by
          rcases List.mem_cons.mp hmem with h | h
          · exact h
          · exact absurd h hmem2
        refine ⟨entry, by rw [hbj]; exact hentry, ?_⟩
        rw [hchr]
        have hjb : j - 1 = b := by omega
        rw [hjb]
        exact List.get?_set_eq_of_lt entry.2 hb
    · rw [if_neg hmem]
      have hmem2 : b + 1 ∉ js := fun hc => hmem (List.mem_cons_of_mem _ hc)
      rw [if_neg hmem2] at hchr
      have hne : b + 1 ≠ j := fun hc => hmem (by simp [hc])
      rw [hchr]
      exact List.get?_set_ne entry.2 acc (by omega)

theorem buildBoneToJointMap_eq_spec (skel : List (Nat × Int)) (numBones : Nat)
    (hdim : skel.length = numBones + 1) :
    buildBoneToJointMap skel numBones =
      Except.ok (boneToJointMapSpec skel numBones) := by
  have hrange : List.range' 1 (skel.length - 1) = List.range' 1 numBones := by
    rw [hdim, Nat.add_sub_cancel]
  have hjs : ∀ j ∈ List.range' 1 numBones, 1 ≤ j ∧ j < skel.length ∧
      j - 1 < (List.replicate numBones (0 : Int)).length := by
    intro j hj
    obtain ⟨i, hi, hji⟩ := List.mem_range'.mp hj
    simp only [List.length_replicate]
    omega
  obtain ⟨out, hout, hlen, hchar⟩ :=
    buildMapLoop_spec skel (List.range' 1 numBones)
      (List.replicate numBones (0 : Int)) hjs
  unfold buildBoneToJointMap
  rw [hrange, hout]
  congr 1
  rw [List.ext_get?_iff]
  intro n
  simp only [List.length_replicate] at hlen hchar
  by_cases hn : n < numBones
  · have hmem : n + 1 ∈ List.range' 1 numBones := by
      rw [List.mem_range']
      exact ⟨n, hn, by omega⟩
    have hc := hchar n hn
    rw [if_pos hmem] at hc
    obtain ⟨e, he, houtn⟩ := hc
    rw [houtn]
    unfold boneToJointMapSpec
    rw [List.get?_map, List.get?_range hn]
    simp only [Option.map_some', he, Option.getD_some]
  · have h1 : out.get? n = none := List.get?_eq_none.mpr (by omega)
    have h2 : (boneToJointMapSpec skel numBones).get? n = none := by
      apply List.get?_eq_none.mpr
      unfold boneToJointMapSpec
      simp only [List.length_map, List.length_range]
      omega
    rw [h1, h2]

/-! ### Lemmas about file parsing and the fast write path -/

theorem mapExcept_ok_length {α β : Type} (f : α → Except PyErr β) :
    ∀ (l : List α) (out : List β), mapExcept f l = Except.ok out →
      out.length = l.length := by
  intro l
  induction l with
  | nil =>
    intro out h
    simp only [mapExcept] at h
    cases h
    rfl
  | cons a as ih =>
    intro out h
    unfold mapExcept at h
    split at h
    · exact absurd h (by simp)
    · next b hb =>
      split at h
      · exact absurd h (by simp)
      · next bs hbs =>
        cases h
        simp [ih bs hbs]

theorem rowWritesAux_mem (vi nB : Nat) :
    ∀ (row : List ℚ) (j0 j : Nat) (w : ℚ), row.get? j = some w →
      (apiWeightIndex vi nB (j0 + j), w) ∈ rowWritesAux vi nB j0 row := by
  intro row
  induction row with
  | nil =>
    intro j0 j w h
    simp at h
  | cons v vs ih =>
    intro j0 j w h
    cases j with
    | zero =>
      simp only [List.get?_cons_zero, Option.some.injEq] at h
      subst h
      simp [rowWritesAux]
    | succ j =>
      simp only [List.get?_cons_succ] at h
      have hmem := ih (j0 + 1) j w h
      have harith : j0 + 1 + j = j0 + (j + 1) := by omega
      rw [harith] at hmem
      exact List.mem_cons_of_mem _ hmem

theorem fastPathWritesAux_mem (nB : Nat) :
    ∀ (rows : List (List ℚ)) (vi dv : Nat) (r : List ℚ) (j : Nat) (w : ℚ),
      rows.get? dv = some r → r.get? j = some w →
      (apiWeightIndex (vi + dv) nB j, w) ∈ fastPathWritesAux nB vi rows := by
  intro rows
  induction rows with
  | nil =>
    intro vi dv r j w h
    simp at h
  | cons r0 rs ih =>
    intro vi dv r j w hr hw
    cases dv with
    | zero =>
      simp only [List.get?_cons_zero, Option.some.injEq] at hr
      subst hr
      unfold fastPathWritesAux
      apply List.mem_append_left
      have hmem := rowWritesAux_mem vi nB r0 0 j w hw
      simpa using hmem
    | succ dv =>
      simp only [List.get?_cons_succ] at hr
      unfold fastPathWritesAux
      apply List.mem_append_right
      have hmem := ih (vi + 1) dv r j w hr hw
      have harith : vi + 1 + dv = vi + (dv + 1) := by omega
      rw [harith] at hmem
      exact hmem

theorem fastPathWrites_mem (nB : Nat) {vjw : List (List ℚ)} {v j : Nat}
    {r : List ℚ} {w : ℚ} (hr : vjw.get? v = some r) (hw : r.get? j = some w) :
    (apiWeightIndex v nB j, w) ∈ fastPathWrites vjw nB := by
  have hmem := fastPathWritesAux_mem nB vjw 0 v r j w hr hw
  simpa using hmem

/-! ### Lemmas about the skeleton flattening (lines 69-87) -/

mutual

theorem skelAux_spec (acc : List (Nat × Int)) (t : JointNode) (par : Int)
    (hp : par < (acc.length : Int)) :
    (skelAux acc t par).length = acc.length + treeSize t ∧
    (∀ i, i < acc.length → (skelAux acc t par).get? i = acc.get? i) ∧
    (skelAux acc t par).get? acc.length = some (rootId t, par) ∧
    (∀ i e, (skelAux acc t par).get? i = some e → acc.length ≤ i →
      e.2 < (i : Int)) := by
  cases t with
  | node jid children =>
    have hdef : skelAux acc (JointNode.node jid children) par =
        skelAuxList (acc ++ [(jid, par)]) children (Int.ofNat acc.length) := rfl
    have hacc' : (acc ++ [(jid, par)]).length = acc.length + 1 := by simp
    have hp' : Int.ofNat acc.length <
        (((acc ++ [(jid, par)]).length : Nat) : Int) := by
      rw [hacc']
      rw [Int.ofNat_eq_coe]
      omega
    obtain ⟨hlen, hpre, hinv⟩ :=
      skelAuxList_spec (acc ++ [(jid, par)]) children (Int.ofNat acc.length) hp'
    rw [hdef]
    have hsize : treeSize (JointNode.node jid children) =
        1 + treeSizeList children := rfl
    refine ⟨?_, ?_, ?_, ?_⟩
    · rw [hlen, hacc', hsize]
      omega
    · intro i hi
      rw [hpre i (by omega)]
      exact List.get?_append (by omega)
    · rw [hpre acc.length (by omega), List.get?_concat_length]
      rfl
    · intro i e hie hi
      by_cases hieq : i = acc.length
      · subst hieq
        rw [hpre acc.length (by omega), List.get?_concat_length] at hie
        cases hie
        exact hp
      · exact hinv i e hie (by omega)
termination_by sizeOf t

theorem skelAuxList_spec (acc : List (Nat × Int)) (cs : List JointNode)
    (par : Int) (hp : par < (acc.length : Int)) :
    (skelAuxList acc cs par).length = acc.length + treeSizeList cs ∧
    (∀ i, i < acc.length → (skelAuxList acc cs par).get? i = acc.get? i) ∧
    (∀ i e, (skelAuxList acc cs par).get? i = some e → acc.length ≤ i →
      e.2 < (i : Int)) := by
  cases cs with
  | nil =>
    have hdef : skelAuxList acc [] par = acc := rfl
    rw [hdef]
    refine ⟨by simp [treeSizeList], fun i hi => rfl, ?_⟩
    intro i e hie hi
    obtain ⟨hlt, -⟩ := List.get?_eq_some.mp hie
    omega
  | cons c cs' =>
    have hdef : skelAuxList acc (c :: cs') par =
        skelAuxList (skelAux acc c par) cs' par := rfl
    obtain ⟨hlen1, hpre1, hhd1, hinv1⟩ := skelAux_spec acc c par hp
    have hp2 : par < ((skelAux acc c par).length : Int) := by
      rw [hlen1]
      push_cast
      omega
    obtain ⟨hlen2, hpre2, hinv2⟩ :=
      skelAuxList_spec (skelAux acc c par) cs' par hp2
    rw [hdef]
    have hsize : treeSizeList (c :: cs') = treeSize c + treeSizeList cs' := rfl
    refine ⟨?_, ?_, ?_⟩
    · rw [hlen2, hlen1, hsize]
      omega
    · intro i hi
      rw [hpre2 i (by omega), hpre1 i hi]
    · intro i e hie hi
      by_cases hcase : i < (skelAux acc c par).length
      · rw [hpre2 i hcase] at hie
        exact hinv1 i e hie hi
      · exact hinv2 i e hie (by omega)
termination_by sizeOf cs

end

/-- Complete case analysis of `pinocchioWeightsImport`: it either succeeds
with influences added and weights pruned, or raises with influences added
and weights untouched. -/
theorem import_cases (st : HostState) (skel : List (Nat × Int))
    (vbw : List (List ℚ)) :
    (∃ vjw, pinocchioWeightsImport st skel vbw =
      (⟨addInfluences st.influences (skel.map Prod.fst),
        pruneAllWeights st.weights⟩, Except.ok vjw)) ∨
    (∃ e, pinocchioWeightsImport st skel vbw =
      (⟨addInfluences st.influences (skel.map Prod.fst), st.weights⟩,
        Except.error e)) := by
  unfold pinocchioWeightsImport
  split
  · exact Or.inr ⟨PyErr.indexError, rfl⟩
  · split
    · exact Or.inr ⟨_, rfl⟩
    · split
      · exact Or.inr ⟨_, rfl⟩
      · exact Or.inl ⟨_, rfl⟩

/-! ### Claim theorems -/

unseal Rat.add Rat.mul in
/-- C1: for every flattened skeleton with `numBones = numJoints - 1`, the
bone-to-joint map built at lines 113-123 assigns each bone `b` to the
parent index of joint `b + 1` (it coincides with the spec's
parent-assignment map `boneToJointMapSpec`), and on the 3-joint chain
R→A→B with one vertex whose bone-weight row is `[0.6, 0.4]` the import
produces the joint-weight row `[0.6, 0.4, 0.0]`. -/
theorem boneToJointMap_parent_policy (skelList : List (Nat × Int))
    (numBones : Nat) (hdim : skelList.length = numBones + 1) :
    buildBoneToJointMap skelList numBones =
      Except.ok (boneToJointMapSpec skelList numBones) ∧
    (pinocchioWeightsImport ⟨[0, 1, 2], [[0, 0, 0]]⟩ [(0, -1), (1, 0), (2, 1)]
        [[rq 3 5, rq 2 5]]).2 = Except.ok [[rq 3 5, rq 2 5, 0]] :=
  ⟨buildBoneToJointMap_eq_spec skelList numBones hdim, by decide⟩

/-- Witness for C1, at the 3-joint chain R→A→B with bones R→A and A→B. -/
theorem boneToJointMap_parent_policy_witness :
    buildBoneToJointMap [(0, -1), (1, 0), (2, 1)] 2 =
      Except.ok (boneToJointMapSpec [(0, -1), (1, 0), (2, 1)] 2) ∧
    (pinocchioWeightsImport ⟨[0, 1, 2], [[0, 0, 0]]⟩ [(0, -1), (1, 0), (2, 1)]
        [[rq 3 5, rq 2 5]]).2 = Except.ok [[rq 3 5, rq 2 5, 0]] :=
  boneToJointMap_parent_policy [(0, -1), (1, 0), (2, 1)] 2 (by decide)

unseal Rat.add Rat.mul in
/-- C2 (code defect): the dimension check of line 107 is a Python
tuple-assert and never fires, so a bone count different from
`numJoints - 1` is not rejected.  With a 2-joint skeleton (1 bone
expected) and a 2-bone row the import succeeds, silently folding the
excess bone into the root joint; and on the spec's own example — 3 bone
columns against a 5-joint skeleton — the loop of lines 121-123 dies with
an `IndexError` writing past `boneIndexToJointIndex`, not with the claimed
`DimensionMismatch`. -/
theorem dimension_mismatch_not_rejected :
    (pinocchioWeightsImport ⟨[0, 1], [[1]]⟩ [(0, -1), (1, 0)]
        [[rq 1 2, rq 1 2]]).2 = Except.ok [[1, 0]] ∧
    (pinocchioWeightsImport ⟨[0], [[1]]⟩
        [(0, -1), (1, 0), (2, 1), (3, 2), (4, 3)]
        [[rq 1 4, rq 1 4, rq 1 2]]).2 = Except.error PyErr.indexError :=
  ⟨by decide, by decide⟩

unseal Rat.add Rat.mul in
/-- C3 (code defect): the normalization check of line 126 is a Python
tuple-assert and never fires: a vertex row summing to 0.5 (so
`|sum - 1| = 0.5 ≥ 0.1`) is not rejected — the import completes and
returns its aggregated row. -/
theorem unnormalized_weights_not_rejected :
    (pinocchioWeightsImport ⟨[0, 1, 2], [[1]]⟩ [(0, -1), (1, 0), (2, 1)]
        [[rq 3 10, rq 1 5]]).2 = Except.ok [[rq 3 10, rq 1 5, 0]] :=
  by decide

/-- C4: aggregation conserves weight mass — whenever the import returns
joint weights, each vertex's joint-weight row sums to exactly the same
rational as its bone-weight row (bones aliasing one joint accumulate
rather than overwrite). -/
theorem aggregation_conserves_mass (st : HostState)
    (skel : List (Nat × Int)) (vbw out : List (List ℚ)) (v : Nat)
    (rI rO : List ℚ)
    (hok : (pinocchioWeightsImport st skel vbw).2 = Except.ok out)
    (hI : vbw.get? v = some rI) (hO : out.get? v = some rO) :
    rO.sum = rI.sum := by
  obtain ⟨row0, btoj, hh, hb, ha⟩ := import_ok_destruct hok
  obtain ⟨hlen, hrows⟩ := aggregate_ok_spec btoj skel.length vbw out ha
  obtain ⟨rO2, hO2, hrow⟩ := hrows v rI hI
  rw [hO2] at hO
  cases hO
  exact aggRow_ok_sum hrow

unseal Rat.add Rat.mul in
/-- Witness for C4: two bones both mapped to the root joint with weights
0.3 and 0.4 accumulate to 0.7, and the total mass 0.7 is conserved. -/
theorem aggregation_conserves_mass_witness :
    ([rq 7 10, 0, 0] : List ℚ).sum = ([rq 3 10, rq 2 5] : List ℚ).sum :=
  aggregation_conserves_mass ⟨[0, 1, 2], [[0, 0, 0]]⟩ [(0, -1), (1, 0), (2, 0)]
    [[rq 3 10, rq 2 5]] [[rq 7 10, 0, 0]] 0 [rq 3 10, rq 2 5] [rq 7 10, 0, 0]
    (by decide) (by decide) (by decide)

/-- C5: flattening any joint tree puts the root at index 0 with
parentIndex -1, and every entry at index `i > 0` has parentIndex strictly
less than `i` (parents precede children in the pre-order DFS). -/
theorem flatten_parent_precedes_child (t : JointNode) (i : Nat)
    (e : Nat × Int) (hi : 0 < i)
    (he : (makePinocchioSkeletonList t).get? i = some e) :
    e.2 < (i : Int) ∧
    (makePinocchioSkeletonList t).get? 0 = some (rootId t, -1) := by
  obtain ⟨hlen, hpre, hhd, hinv⟩ := skelAux_spec [] t (-1) (by decide)
  exact ⟨hinv i e he (by simp), hhd⟩

/-- Witness for C5 at the two-node tree 7 → 8. -/
theorem flatten_parent_precedes_child_witness :
    ((8 : Nat), (0 : Int)).2 < ((1 : Nat) : Int) ∧
    (makePinocchioSkeletonList
        (JointNode.node 7 [JointNode.node 8 []])).get? 0 =
      some (rootId (JointNode.node 7 [JointNode.node 8 []]), -1) :=
  flatten_parent_precedes_child (JointNode.node 7 [JointNode.node 8 []]) 1
    (8, 0) (by decide) (by decide)

unseal Rat.add Rat.mul in
/-- C6 counterexample: on a weight row summing to 0.5 — an input the claim
says must fail validation leaving the skin binding untouched — the import
raises nothing, extends the influence list from `[0]` to `[0, 1, 2]`
(before any weights are even read) and overwrites the per-vertex weights
via the prune. -/
theorem validation_before_mutation_cex :
    (pinocchioWeightsImport ⟨[0], [[1]]⟩ [(0, -1), (1, 0), (2, 1)]
        [[rq 3 10, rq 1 5]]).2 = Except.ok [[rq 3 10, rq 1 5, 0]] ∧
    (pinocchioWeightsImport ⟨[0], [[1]]⟩ [(0, -1), (1, 0), (2, 1)]
        [[rq 3 10, rq 1 5]]).1 = ⟨[0, 1, 2], [[0]]⟩ ∧
    (⟨[0, 1, 2], [[0]]⟩ : HostState) ≠ ⟨[0], [[1]]⟩ :=
  ⟨by decide, by decide, by decide⟩

/-- C6 amended: when the import raises an error, the per-vertex weights
are left untouched (every failure point precedes the prune of line 145);
the influence list, however, may already have been extended, and the
intended validation asserts never fire at all. -/
theorem error_leaves_weights_untouched (st : HostState)
    (skel : List (Nat × Int)) (vbw : List (List ℚ)) (e : PyErr)
    (h : (pinocchioWeightsImport st skel vbw).2 = Except.error e) :
    (pinocchioWeightsImport st skel vbw).1.weights = st.weights := by
  rcases import_cases st skel vbw with ⟨vjw, heq⟩ | ⟨e2, heq⟩
  · rw [heq] at h
    exact absurd h (by simp)
  · rw [heq]

/-- Witness for the amended C6: an empty weight list raises `IndexError`
at `vertBoneWeights[0]` and the host weights stay `[[1]]`. -/
theorem error_leaves_weights_untouched_witness :
    (pinocchioWeightsImport ⟨[0], [[1]]⟩ [(0, -1)]
        ([] : List (List ℚ))).1.weights = [[1]] :=
  error_leaves_weights_untouched ⟨[0], [[1]]⟩ [(0, -1)] [] PyErr.indexError
    (by decide)

unseal Rat.add Rat.mul in
/-- C7 counterexample: on the chain R→A→B with vertex row `[0.5, 0.5]`,
the root joint's column receives 0.5, not 0 — under the parent-assignment
policy the root receives the weight of every bone that ends at one of its
direct children. -/
theorem root_column_zero_cex :
    (pinocchioWeightsImport ⟨[0, 1, 2], [[0, 0, 0]]⟩ [(0, -1), (1, 0), (2, 1)]
        [[rq 1 2, rq 1 2]]).2 = Except.ok [[rq 1 2, rq 1 2, 0]] ∧
    ([rq 1 2, rq 1 2, 0] : List ℚ).getD 0 0 ≠ 0 :=
  ⟨by decide, by decide⟩

/-- C7 amended: the root joint's column of the import result equals, per
vertex, the sum of the raw weights of exactly the bones mapped to joint
slot 0 (those whose end joint is a direct child of the root); it is zero
only when those bones carry no weight, not in general. -/
theorem root_column_is_root_bone_mass (st : HostState)
    (skel : List (Nat × Int)) (vbw out : List (List ℚ)) (btoj : List Int)
    (v : Nat) (rI rO : List ℚ)
    (hok : (pinocchioWeightsImport st skel vbw).2 = Except.ok out)
    (hb : buildBoneToJointMap skel (vbw.headD []).length = Except.ok btoj)
    (hne : skel ≠ [])
    (hI : vbw.get? v = some rI) (hO : out.get? v = some rO) :
    rO.getD 0 0 = colSum btoj skel.length 0 0 rI := by
  obtain ⟨row0, btoj2, hh, hb2, ha⟩ := import_ok_destruct hok
  have hhd : vbw.headD [] = row0 := by
    cases vbw with
    | nil => simp at hh
    | cons a l => simp_all
  rw [hhd] at hb
  rw [hb] at hb2
  cases hb2
  obtain ⟨hlen, hrows⟩ := aggregate_ok_spec btoj skel.length vbw out ha
  obtain ⟨rO2, hO2, hrow⟩ := hrows v rI hI
  rw [hO2] at hO
  cases hO
  have hn : 0 < skel.length := by
    cases skel with
    | nil => exact absurd rfl hne
    | cons a l => simp
  exact aggRow_ok_getD hrow 0 hn

unseal Rat.add Rat.mul in
/-- Witness for the amended C7 at the chain R→A→B with row [0.6, 0.4]:
the root column 0.6 is exactly the mass of bone 0 (the bone R→A). -/
theorem root_column_is_root_bone_mass_witness :
    ([rq 3 5, rq 2 5, 0] : List ℚ).getD 0 0 = colSum [0, 1] 3 0 0 [rq 3 5, rq 2 5] :=
  root_column_is_root_bone_mass ⟨[0, 1, 2], [[0, 0, 0]]⟩
    [(0, -1), (1, 0), (2, 1)] [[rq 3 5, rq 2 5]] [[rq 3 5, rq 2 5, 0]] [0, 1] 0
    [rq 3 5, rq 2 5] [rq 3 5, rq 2 5, 0] (by decide) (by decide) (by decide)
    (by decide) (by decide)

/-- C8 counterexample: flattening a graph in which the handle 5 is a
shared child returns a perfectly ordinary list containing handle 5 twice —
the traversal of lines 78-87 keeps no visited set and raises no
MalformedSkeleton failure. -/
theorem flatten_shared_child_cex :
    makePinocchioSkeletonList
        (JointNode.node 1 [JointNode.node 5 [], JointNode.node 5 []]) =
      [(1, -1), (5, 0), (5, 0)] ∧
    ((makePinocchioSkeletonList
        (JointNode.node 1 [JointNode.node 5 [], JointNode.node 5 []])).map
      Prod.fst).count 5 = 2 :=
  ⟨by decide, by decide⟩

/-- C8 amended: `makePinocchioSkeletonList` is total and never fails: for
every input it returns one entry per node visit (`treeSize`), so a node
reachable along two paths silently yields two entries instead of a
`MalformedSkeleton` error; on genuine trees this is one entry per node. -/
theorem flatten_total_visits_each_occurrence (t : JointNode) :
    (makePinocchioSkeletonList t).length = treeSize t := by
  obtain ⟨hlen, -, -, -⟩ := skelAux_spec [] t (-1) (by decide)
  simpa using hlen

unseal Rat.add Rat.mul in
/-- C9 counterexample: `readPinocchioWeights` accepts both the empty file
(returning an empty weight list) and a ragged file (returning the ragged
rows unchanged) instead of failing with MalformedWeightFile. -/
theorem readWeights_no_validation_cex :
    readPinocchioWeights [] = Except.ok [] ∧
    readPinocchioWeights [['1'], ['0', '.', '5', spaceChar, '0', '.', '5']] =
      Except.ok [[1], [rq 1 2, rq 1 2]] :=
  ⟨by decide, by decide⟩

/-- C9 amended: `readPinocchioWeights` performs no structural validation:
whenever it succeeds it returns exactly one row of parsed floats per input
line, empty and ragged inputs included; it fails only when an individual
token does not parse as a float. -/
theorem readWeights_row_per_line (lines : List (List Char))
    (out : List (List ℚ))
    (h : readPinocchioWeights lines = Except.ok out) :
    out.length = lines.length :=
  mapExcept_ok_length parseLine lines out h

unseal Rat.add Rat.mul in
/-- Witness for the amended C9 on a one-line file. -/
theorem readWeights_row_per_line_witness :
    ([[(1 : ℚ)]] : List (List ℚ)).length = [['1']].length :=
  readWeights_row_per_line [['1']] [[1]] (by decide)

/-- C10: in the fast write path, the flat buffer holds
`numVertices * numBones` doubles but each vertex row has
`numJoints = numBones + 1` entries written with stride `numBones`: the
last write of vertex `v` lands on the first slot of vertex `v + 1`, and
the loop emits a write at flat index `numVertices * numBones` — equal to
`numWeights`, one past the last valid index of the buffer. -/
theorem fastPath_flat_index_overflow (vjw : List (List ℚ))
    (numBones numJoints v : Nat)
    (hV : 1 ≤ vjw.length) (hJ : 2 ≤ numJoints)
    (hB : numJoints = numBones + 1)
    (hrows : ∀ r ∈ vjw, r.length = numJoints) :
    apiWeightIndex v numBones numBones = apiWeightIndex (v + 1) numBones 0 ∧
    numWeights vjw.length numBones ∈
      (fastPathWrites vjw numBones).map Prod.fst := by
  constructor
  · unfold apiWeightIndex
    ring
  · obtain ⟨r, hr⟩ : ∃ r, vjw.get? (vjw.length - 1) = some r := by
      cases he : vjw.get? (vjw.length - 1) with
      | none => exact absurd (List.get?_eq_none.mp he) (by omega)
      | some r => exact ⟨r, rfl⟩
    have hrlen : r.length = numJoints := hrows r (List.get?_mem hr)
    obtain ⟨w, hw⟩ : ∃ w, r.get? numBones = some w := by
      cases he : r.get? numBones with
      | none => exact absurd (List.get?_eq_none.mp he) (by omega)
      | some w => exact ⟨w, rfl⟩
    have hmem := fastPathWrites_mem numBones hr hw
    have harith : apiWeightIndex (vjw.length - 1) numBones numBones =
        numWeights vjw.length numBones := by
      unfold apiWeightIndex numWeights
      conv_rhs => rw [← Nat.sub_add_cancel hV]
      ring
    rw [harith] at hmem
    exact List.mem_map_of_mem Prod.fst hmem

/-- Witness for C10: one vertex, two joints, one bone — the buffer has one
slot and the second write targets index 1, one past the end. -/
theorem fastPath_flat_index_overflow_witness :
    apiWeightIndex 0 1 1 = apiWeightIndex 1 1 0 ∧
    numWeights 1 1 ∈ (fastPathWrites [[1, 0]] 1).map Prod.fst :=
  fastPath_flat_index_overflow [[1, 0]] 1 2 0 (by decide) (by decide)
    (by decide) (by decide)
